import Mathlib

/-!
# Verification of the VoxAurora Text-Repair & Semantic-Match Engine

Shallow embedding, in Lean 4, of the core logic of the VoxAurora repository
(`src/bert.rs`, `src/dawg_loader.rs`, `src/whisper_integration.rs`).

Modelling conventions, used throughout:

* Rust `&str` values are modelled as `List Char` (sequences of Unicode scalar
  values); Rust `str::len()` (the UTF-8 byte length) is modelled by `rustLen`,
  which sums the UTF-8 encoded size of each scalar value.
* `f32` arithmetic is modelled by exact rational arithmetic over `ℚ`.  The
  decimal literals of the source (`0.70`, `0.75`, ...) are kept as the
  corresponding rationals.  A floating-point division whose denominator is zero
  has no numeric value (IEEE produces NaN or ±∞); the embedding makes such a
  result an explicit `none`.
* External oracles (the BERT sentence-embedding model, the loaded dictionaries,
  the Unicode character classes used by the `regex` crate) are parameters of the
  embedded functions: the embedding is quantified over every possible behaviour
  of the oracle, and concrete witnesses instantiate them with small executable
  stand-ins.
-/

namespace VoxAurora

/-! ## UTF-8 byte model

`utf8EncodeChar` is the UTF-8 encoding of one Unicode scalar value (byte values
as natural numbers), and `rustLen` models Rust's `str::len()`: the number of
bytes of the UTF-8 encoding. -/

/-- UTF-8 encoding of a single Unicode scalar value, as its list of byte
values.  One byte below U+0080, two below U+0800, three below U+10000, four
otherwise. -/
def utf8EncodeChar (c : Char) : List ℕ :=
  let v := c.toNat
  if v < 0x80 then [v]
  else if v < 0x800 then [0xC0 + v / 0x40, 0x80 + v % 0x40]
  else if v < 0x10000 then
    [0xE0 + v / 0x1000, 0x80 + (v / 0x40) % 0x40, 0x80 + v % 0x40]
  else
    [0xF0 + v / 0x40000, 0x80 + (v / 0x1000) % 0x40, 0x80 + (v / 0x40) % 0x40,
      0x80 + v % 0x40]

/-- UTF-8 encoding of a string (a list of scalar values) as a byte list. -/
def utf8Encode (cs : List Char) : List ℕ :=
  (cs.map utf8EncodeChar).flatten

/-- Model of Rust `str::len()`: the UTF-8 byte length of the string. -/
def rustLen (cs : List Char) : ℕ :=
  (utf8Encode cs).length

theorem utf8Encode_append (a b : List Char) :
    utf8Encode (a ++ b) = utf8Encode a ++ utf8Encode b := by
  simp [utf8Encode]

theorem rustLen_append (a b : List Char) :
    rustLen (a ++ b) = rustLen a + rustLen b := by
  simp [rustLen, utf8Encode_append]

/-! ## `src/bert.rs`: cosine similarity (claim C4)

```rust
pub fn cosine_similarity(a: &[f32], b: &[f32]) -> f32 {
    let dot = a.iter().zip(b).map(|(x, y)| x * y).sum::<f32>();
    let norm_a = a.iter().map(|x| x * x).sum::<f32>().sqrt();
    let norm_b = b.iter().map(|x| x * x).sum::<f32>().sqrt();
    dot / (norm_a * norm_b)
}
```

The square roots are irrational in general, so the exact-arithmetic embedding
returns the dot product together with the two squared norms: the `f32` result
of the source is `dot / (sqrt na2 * sqrt nb2)`.  The source has no zero-norm
guard: when either squared norm is `0` the denominator `norm_a * norm_b` is `0`
and the IEEE division produces NaN (or ±∞), not a numeric value; the embedding
returns `none` for exactly that case. -/

/-- Sum of squares of a vector: the square of its L2 norm. -/
def sumSq (v : List ℚ) : ℚ :=
  (v.map fun x => x * x).sum

/-- Dot product, with the truncating `zip` of the source. -/
def dotProd (a b : List ℚ) : ℚ :=
  ((a.zip b).map fun p => p.1 * p.2).sum

/-- Embedding of `cosine_similarity` from `src/bert.rs` (lines 41–46).
Returns `some (dot, sumSq a, sumSq b)` — the value of the source expression is
`dot / (sqrt (sumSq a) * sqrt (sumSq b))` — and `none` when either squared
norm is zero, in which case the source divides by zero and the IEEE result is
NaN or ±∞ rather than any number. -/
def cosine_similarity (a b : List ℚ) : Option (ℚ × ℚ × ℚ) :=
  if sumSq a = 0 ∨ sumSq b = 0 then none
  else some (dotProd a b, sumSq a, sumSq b)

theorem sumSq_nonneg (v : List ℚ) : 0 ≤ sumSq v := by
  induction v with
  | nil => simp [sumSq]
  | cons x xs ih =>
      simp only [sumSq, List.map_cons, List.sum_cons] at *
      nlinarith [mul_self_nonneg x]

/-- Cauchy–Schwarz for the truncating zip dot product:
`(dotProd a b)² ≤ sumSq a * sumSq b`. -/
theorem dotProd_sq_le (a b : List ℚ) :
    dotProd a b * dotProd a b ≤ sumSq a * sumSq b := by
  induction a generalizing b with
  | nil =>
      simp only [dotProd, sumSq, List.zip_nil_left, List.map_nil, List.sum_nil]
      nlinarith [sumSq_nonneg b, sumSq_nonneg ([] : List ℚ)]
  | cons x xs ih =>
      cases b with
      | nil =>
          simp only [dotProd, sumSq, List.zip_nil_right, List.map_nil,
            List.sum_nil, List.map_cons, List.sum_cons]
          nlinarith [sumSq_nonneg (x :: xs)]
      | cons y ys =>
          have hd := ih ys
          have hA := sumSq_nonneg xs
          have hB := sumSq_nonneg ys
          simp only [dotProd, sumSq, List.zip_cons_cons, List.map_cons,
            List.sum_cons] at *
          set d := ((xs.zip ys).map fun p => p.1 * p.2).sum with hdd
          set A := (xs.map fun x => x * x).sum with hAA
          set B := (ys.map fun x => x * x).sum with hBB
          rcases eq_or_lt_of_le hB with hB0 | hBpos
          · have hd0 : d = 0 := by nlinarith [mul_self_nonneg d]
            rw [hd0, ← hB0]
            nlinarith [mul_nonneg hA (mul_self_nonneg y)]
          · have key : B * ((x * y + d) * (x * y + d)) +
                ((x * B - y * d) * (x * B - y * d) + B * (A * B - d * d)
                  + (y * y) * (A * B - d * d)) =
                B * ((x * x + A) * (y * y + B)) := by ring
            nlinarith [mul_self_nonneg (x * B - y * d),
              mul_nonneg hBpos.le (sub_nonneg.2 hd),
              mul_nonneg (mul_self_nonneg y) (sub_nonneg.2 hd)]

/-! ## `src/whisper_integration.rs`: merge score (claim C6)

```rust
fn compute_merge_score(word: &str, merge_len: usize) -> f32 {
    let len = word.len();
    if !(3..=20).contains(&len) { return 0.0; }
    let base_score = match merge_len { 2 => 0.50, 3 => 0.55, _ => 0.60 };
    let length_penalty = if len < 5 { -0.05 } else { 0.0 };
    let bert_score = match check_word_with_bert(word) {
        Ok(s) => s * 0.10,
        Err(_) => 0.0,
    };
    let total = base_score + length_penalty + bert_score;
    total.clamp(0.0, 1.0)
}
```

`check_word_with_bert` invokes the external embedding model; it is modelled as
an oracle `bert : List Char → Option ℚ`, where `none` is the `Err` case. -/

/-- Embedding of `compute_merge_score` (lines 453–482 of
`src/whisper_integration.rs`), parameterized by the BERT plausibility oracle
(`none` models a failed embedding computation). -/
def compute_merge_score (bert : List Char → Option ℚ) (word : List Char)
    (merge_len : ℕ) : ℚ :=
  let len := rustLen word
  if ¬(3 ≤ len ∧ len ≤ 20) then 0
  else
    let base_score : ℚ := if merge_len = 2 then 0.50 else if merge_len = 3 then 0.55 else 0.60
    let length_penalty : ℚ := if len < 5 then -0.05 else 0
    let bert_score : ℚ :=
      match bert word with
      | some s => s * 0.10
      | none => 0
    let total := base_score + length_penalty + bert_score
    min (max total 0) 1

/-! ## `src/whisper_integration.rs`: merge decision (claims C1, C2)

```rust
fn handle_merge_decision(candidate, candidate_lower, candidate_with_space,
                         spaced_in_dawg, merge_len, merge_score) -> Option<(String, usize)> {
    let short_common_word = (merge_len == 2) && (candidate_lower.len() < 10);
    if short_common_word {
        let bert_score = check_word_with_bert(candidate_lower).unwrap_or(0.0);
        if spaced_in_dawg && bert_score < 0.1 { None }
        else { Some((candidate.to_string(), merge_len)) }
    } else {
        let threshold = match merge_len { 2 => 0.70, 3 => 0.75, _ => 0.80 };
        if !spaced_in_dawg || merge_score >= threshold { Some((candidate.to_string(), merge_len)) }
        else { None }
    }
}
```
-/

/-- Embedding of `handle_merge_decision` (lines 403–450 of
`src/whisper_integration.rs`).  `bert` is the `check_word_with_bert` oracle
(`none` models `Err`, and `unwrap_or(0.0)` becomes `getD 0`). -/
def handle_merge_decision (bert : List Char → Option ℚ)
    (candidate candidate_lower candidate_with_space : List Char)
    (spaced_in_dawg : Bool) (merge_len : ℕ) (merge_score : ℚ) :
    Option (List Char × ℕ) :=
  if merge_len = 2 ∧ rustLen candidate_lower < 10 then
    let bert_score := (bert candidate_lower).getD 0
    if spaced_in_dawg = true ∧ bert_score < 0.1 then none
    else some (candidate, merge_len)
  else
    let threshold : ℚ := if merge_len = 2 then 0.70 else if merge_len = 3 then 0.75 else 0.80
    if spaced_in_dawg = false ∨ threshold ≤ merge_score then some (candidate, merge_len)
    else none

/-- The `k`-dependent threshold exactly as the specification words it:
`0.70` for `k = 2`, `0.75` for `k = 3`, `0.80` for `k ≥ 4`. -/
def claimThreshold (k : ℕ) : ℚ :=
  if k = 2 then 0.70 else if k = 3 then 0.75 else 0.80

/-! ## `src/bert.rs`: best-match search (claim C5)

```rust
pub fn find_best_match<T: AsRef<str> + Clone>(input: &str, candidates: &[T])
    -> Result<Option<(T, f32)>, ...> {
    let input_embedding = encode_sentence(input)?;
    let threshold = 0.75;
    let mut best_score = 0.0;
    let mut best_candidate: Option<T> = None;
    for candidate in candidates {
        let candidate_embedding = encode_sentence(candidate.as_ref())?;
        let similarity = cosine_similarity(&input_embedding, &candidate_embedding);
        if similarity > threshold && similarity > best_score {
            best_score = similarity;
            best_candidate = Some(candidate.clone());
        }
    }
    Ok(best_candidate.map(|c| (c, best_score)))
}
```

The embedding oracle is abstracted into the similarity function
`sim : α → ℚ` (the similarity of the fixed input against each candidate);
the `Ok` path of the source is modelled (an `Err` of the oracle aborts the
whole computation and returns no candidate at all). -/

/-- The loop of `find_best_match`, carrying the running
`(best_score, best_candidate)` accumulator. -/
def find_best_loop {α : Type} (sim : α → ℚ) :
    List α → ℚ → Option α → ℚ × Option α
  | [], best, cand => (best, cand)
  | c :: cs, best, cand =>
      if 0.75 < sim c ∧ best < sim c then find_best_loop sim cs (sim c) (some c)
      else find_best_loop sim cs best cand

/-- Embedding of `find_best_match` (lines 50–77 of `src/bert.rs`):
threshold `0.75`, initial best score `0.0`, no initial candidate. -/
def find_best_match {α : Type} (sim : α → ℚ) (candidates : List α) :
    Option (α × ℚ) :=
  ((find_best_loop sim candidates 0 none).2).map
    fun c => (c, (find_best_loop sim candidates 0 none).1)

/-! ## Claim theorems: C4, C6, C1, C2, C5 -/

/-- **C4, counterexample.**  The claim states that `cosine_similarity` returns
`0` when either vector has zero L2 norm.  It does not: the source has no
zero-norm guard, so at `a = [0]`, `b = [1]` the denominator
`norm_a * norm_b` is `0` and the IEEE division `dot / 0` produces NaN, not the
value `0`.  In the embedding the division with zero denominator is `none`. -/
theorem cosine_similarity_zero_norm_counterexample :
    sumSq [(0 : ℚ)] = 0 ∧ cosine_similarity [(0 : ℚ)] [(1 : ℚ)] = none := by
  constructor
  · norm_num [sumSq]
  · norm_num [cosine_similarity, sumSq]

/-- **C4, amended.**  For vectors whose norms are both nonzero,
`cosine_similarity` returns the dot product together with the (positive)
squared norms, and the value `dot / (‖a‖ * ‖b‖)` lies in `[-1, 1]`:
`dot² ≤ ‖a‖² * ‖b‖²`.  When either norm is zero the result is an IEEE
NaN/∞ (`none` in the embedding), not `0`. -/
theorem cosine_similarity_bounded (a b : List ℚ) (d na2 nb2 : ℚ)
    (h : cosine_similarity a b = some (d, na2, nb2)) :
    0 < na2 ∧ 0 < nb2 ∧ d * d ≤ na2 * nb2 := by
  unfold cosine_similarity at h
  split at h
  · exact absurd h (by simp)
  · rename_i hcond
    push_neg at hcond
    have h' : dotProd a b = d ∧ sumSq a = na2 ∧ sumSq b = nb2 := by
      simpa [Prod.ext_iff] using h
    obtain ⟨hd, ha, hb⟩ := h'
    subst hd; subst ha; subst hb
    exact ⟨lt_of_le_of_ne (sumSq_nonneg a) (Ne.symm hcond.1),
      lt_of_le_of_ne (sumSq_nonneg b) (Ne.symm hcond.2), dotProd_sq_le a b⟩

/-- Witness for `cosine_similarity_bounded` at `a = b = [1]`. -/
theorem cosine_similarity_bounded_witness :
    0 < (1 : ℚ) ∧ 0 < (1 : ℚ) ∧ (1 : ℚ) * 1 ≤ 1 * 1 :=
  cosine_similarity_bounded [1] [1] 1 1 1
    (by norm_num [cosine_similarity, sumSq, dotProd])

/-- The merge-score formula exactly as the specification words it (claim C6):
`0` if the length is outside `[3, 20]`, otherwise
`base(k) + length_penalty + 0.10 * plausibility` clamped to `[0, 1]`, with
`base(2) = 0.50`, `base(3) = 0.55`, `base(k ≥ 4) = 0.60`,
`length_penalty = -0.05` for length `< 5`, and a failed plausibility
computation contributing `0`. -/
def spec_merge_score (plausibility : Option ℚ) (len k : ℕ) : ℚ :=
  if len < 3 ∨ 20 < len then 0
  else
    let base : ℚ := if k = 2 then 0.50 else if k = 3 then 0.55 else 0.60
    let penalty : ℚ := if len < 5 then -0.05 else 0
    min (max (base + penalty + 0.10 * plausibility.getD 0) 0) 1

/-- **C6, confirmed.**  `compute_merge_score` computes exactly the
specification's formula, for every plausibility oracle, word and merge
width — including the failure case of the oracle, which contributes `0`
without aborting. -/
theorem compute_merge_score_spec (bert : List Char → Option ℚ)
    (word : List Char) (k : ℕ) :
    compute_merge_score bert word k = spec_merge_score (bert word) (rustLen word) k := by
  by_cases h : rustLen word < 3 ∨ 20 < rustLen word
  · rw [spec_merge_score, if_pos h, compute_merge_score]
    simp only [if_pos (by omega : ¬(3 ≤ rustLen word ∧ rustLen word ≤ 20))]
  · rw [spec_merge_score, if_neg h, compute_merge_score]
    simp only [if_neg (by omega : ¬¬(3 ≤ rustLen word ∧ rustLen word ≤ 20))]
    cases hb : bert word <;> simp [Option.getD] <;> ring_nf

theorem isSome_ite_some_none {β : Type} (c : Prop) [Decidable c] (x : β) :
    ((if c then some x else none).isSome = true) ↔ c := by
  split <;> simp_all

theorem ite_none_some_eq_none {β : Type} (c : Prop) [Decidable c] (x : β) :
    ((if c then none else some x) = none) ↔ c := by
  split <;> simp_all

/-- **C1, confirmed.**  General regime of `handle_merge_decision`: when it is
not the case that `k = 2` and the normalized candidate is shorter than 10
bytes, the engine merges iff the space-joined form is not a dictionary entry
or the merge score reaches the `k`-dependent threshold (`0.70`/`0.75`/`0.80`).
(The function is only invoked by `try_merge_tokens` on candidates whose
concatenated form was accepted by the dictionary.) -/
theorem merge_decision_general_regime (bert : List Char → Option ℚ)
    (candidate candidate_lower candidate_with_space : List Char)
    (spaced_in_dawg : Bool) (merge_len : ℕ) (merge_score : ℚ)
    (h : ¬(merge_len = 2 ∧ rustLen candidate_lower < 10)) :
    (handle_merge_decision bert candidate candidate_lower candidate_with_space
        spaced_in_dawg merge_len merge_score).isSome = true
      ↔ (spaced_in_dawg = false ∨ claimThreshold merge_len ≤ merge_score) := by
  simp only [handle_merge_decision, claimThreshold]
  rw [if_neg h]
  exact isSome_ite_some_none _ _

/-- Witness for `merge_decision_general_regime`: `k = 3`, spaced form in the
dictionary, score exactly at the `0.75` threshold — the engine merges. -/
theorem merge_decision_general_regime_witness :
    ¬((3 : ℕ) = 2 ∧ rustLen "aujourdhui".toList < 10) ∧
    (handle_merge_decision (fun _ => none) "aujourdhui".toList
        "aujourdhui".toList "au jourdhui".toList true 3 0.75).isSome = true := by
  constructor
  · decide
  · exact (merge_decision_general_regime (fun _ => none) "aujourdhui".toList
      "aujourdhui".toList "au jourdhui".toList true 3 0.75 (by decide)).mpr
      (Or.inr (by norm_num [claimThreshold]))

/-- **C2, confirmed.**  Short-pair regime of `handle_merge_decision`
(`k = 2`, normalized candidate shorter than 10 bytes): with the plausibility
of the concatenated word computed directly as `p`, the engine refuses to merge
iff the space-joined form is also a dictionary entry and `p < 0.1`; in every
other case of this regime it merges. -/
theorem merge_decision_short_pair (bert : List Char → Option ℚ)
    (candidate candidate_lower candidate_with_space : List Char)
    (spaced_in_dawg : Bool) (merge_score p : ℚ)
    (hshort : rustLen candidate_lower < 10)
    (hp : bert candidate_lower = some p) :
    (handle_merge_decision bert candidate candidate_lower candidate_with_space
        spaced_in_dawg 2 merge_score = none)
      ↔ (spaced_in_dawg = true ∧ p < 0.1) := by
  simp only [handle_merge_decision]
  rw [if_pos ⟨by trivial, hshort⟩]
  simp only [hp, Option.getD_some]
  exact ite_none_some_eq_none _ _

/-- Witness for `merge_decision_short_pair`, realizing the specification's
concrete scenario: candidate `"bonjour"` with `"bon jour"` also
dictionary-valid (`spaced_in_dawg = true`) and plausibility `0.05 < 0.1` —
the engine does not merge. -/
theorem merge_decision_short_pair_witness :
    rustLen "bonjour".toList < 10 ∧
    handle_merge_decision (fun _ => some 0.05) "bonjour".toList
      "bonjour".toList "bon jour".toList true 2 0 = none := by
  refine ⟨by decide, ?_⟩
  exact (merge_decision_short_pair (fun _ => some 0.05) "bonjour".toList
    "bonjour".toList "bon jour".toList true 0 0.05 (by decide) rfl).mpr
    ⟨rfl, by norm_num⟩

/-- Full characterization of `find_best_loop`: either no element ever beats
both the `0.75` threshold and the running best (and the accumulator is
returned unchanged), or the loop returns the last element that did, which
dominates everything before it and is not beaten by anything after it. -/
theorem find_best_loop_char {α : Type} (sim : α → ℚ) (cs : List α) :
    ∀ (best : ℚ) (cand : Option α),
      (find_best_loop sim cs best cand = (best, cand) ∧
        ∀ x ∈ cs, ¬(0.75 < sim x ∧ best < sim x))
      ∨ (∃ l1 c l2, cs = l1 ++ c :: l2 ∧
          find_best_loop sim cs best cand = (sim c, some c) ∧
          0.75 < sim c ∧ best < sim c ∧
          (∀ x ∈ l1, ¬(0.75 < sim x ∧ best < sim x) ∨ sim x < sim c) ∧
          (∀ x ∈ l2, sim x ≤ sim c ∨ sim x ≤ 0.75)) := by
  induction cs with
  | nil =>
      intro best cand
      left
      exact ⟨rfl, by simp⟩
  | cons c cs ih =>
      intro best cand
      by_cases hc : 0.75 < sim c ∧ best < sim c
      · have hl : find_best_loop sim (c :: cs) best cand
            = find_best_loop sim cs (sim c) (some c) := by
          rw [find_best_loop, if_pos hc]
        rcases ih (sim c) (some c) with ⟨heq, hall⟩ |
            ⟨l1, c', l2, hsplit, heq, h1, h2, h3, h4⟩
        · right
          refine ⟨[], c, cs, by simp, by rw [hl, heq], hc.1, hc.2, by simp, ?_⟩
          intro x hx
          have hx' := hall x hx
          push_neg at hx'
          by_cases hx75 : 0.75 < sim x
          · exact Or.inl (hx' hx75)
          · exact Or.inr (le_of_not_lt hx75)
        · right
          refine ⟨c :: l1, c', l2, by rw [hsplit]; rfl, by rw [hl, heq], h1,
            lt_trans hc.2 h2, ?_, h4⟩
          intro x hx
          rcases List.mem_cons.1 hx with hx | hx
          · subst hx
            exact Or.inr h2
          · rcases h3 x hx with h | h
            · push_neg at h
              by_cases hx75 : 0.75 < sim x
              · exact Or.inr (lt_of_le_of_lt (h hx75) h2)
              · exact Or.inl fun hcc => hx75 hcc.1
            · exact Or.inr h
      · have hl : find_best_loop sim (c :: cs) best cand
            = find_best_loop sim cs best cand := by
          rw [find_best_loop, if_neg hc]
        rcases ih best cand with ⟨heq, hall⟩ |
            ⟨l1, c', l2, hsplit, heq, h1, h2, h3, h4⟩
        · left
          refine ⟨by rw [hl, heq], ?_⟩
          intro x hx
          rcases List.mem_cons.1 hx with hx | hx
          · subst hx; exact hc
          · exact hall x hx
        · right
          refine ⟨c :: l1, c', l2, by rw [hsplit]; rfl, by rw [hl, heq], h1, h2, ?_, h4⟩
          intro x hx
          rcases List.mem_cons.1 hx with hx | hx
          · subst hx; exact Or.inl hc
          · exact h3 x hx

/-- **C5, confirmed.**  `find_best_match` returns `none` exactly when no
candidate's similarity is strictly above the `0.75` threshold (a similarity
equal to the threshold is never selected); otherwise it returns the first
candidate attaining the (strictly-above-threshold) maximum similarity,
paired with that similarity: every earlier candidate scores strictly lower
and every later candidate scores no higher. -/
theorem find_best_match_spec {α : Type} (sim : α → ℚ) (cs : List α) :
    (find_best_match sim cs = none ↔ ∀ c ∈ cs, sim c ≤ 0.75) ∧
    (∀ c s, find_best_match sim cs = some (c, s) →
      s = sim c ∧ 0.75 < s ∧
      ∃ l1 l2, cs = l1 ++ c :: l2 ∧
        (∀ x ∈ l1, sim x < s) ∧ (∀ x ∈ l2, sim x ≤ s)) := by
  rcases find_best_loop_char sim cs 0 none with ⟨heq, hall⟩ |
      ⟨l1, c', l2, hsplit, heq, h1, h2, h3, h4⟩
  · have hfb : find_best_match sim cs = none := by rw [find_best_match, heq]; rfl
    refine ⟨⟨fun _ c hc => ?_, fun _ => hfb⟩, fun c s h => ?_⟩
    · have h := hall c hc
      push_neg at h
      by_cases hc75 : 0.75 < sim c
      · exact le_trans (h hc75) (by norm_num)
      · exact le_of_not_lt hc75
    · rw [hfb] at h
      exact absurd h (by simp)
  · have hfb : find_best_match sim cs = some (c', sim c') := by
      rw [find_best_match, heq]; rfl
    have hmem : c' ∈ cs := hsplit ▸ List.mem_append_right l1 (List.mem_cons_self c' l2)
    refine ⟨⟨fun h => ?_, fun h => ?_⟩, fun c s h => ?_⟩
    · rw [hfb] at h
      exact absurd h (by simp)
    · exact absurd (h c' hmem) (not_le.2 h1)
    · rw [hfb] at h
      obtain ⟨hcc, hss⟩ := Prod.ext_iff.1 (Option.some.inj h)
      subst hcc
      subst hss
      refine ⟨rfl, h1, l1, l2, hsplit, ?_, ?_⟩
      · intro x hx
        rcases h3 x hx with h | h
        · push_neg at h
          by_cases hx75 : 0.75 < sim x
          · exact lt_of_le_of_lt (h hx75) h2
          · exact lt_of_le_of_lt (not_lt.1 hx75) h1
        · exact h
      · intro x hx
        rcases h4 x hx with h | h
        · exact h
        · exact le_trans h h1.le

/-- A small executable similarity oracle used by the `find_best_match`
witness: candidate `n` scores `n / 10`. -/
def demoSim (n : ℕ) : ℚ := (n : ℚ) / 10

/-- Witness for `find_best_match_spec`: on candidates `[5, 9, 8]` the search
returns candidate `9` with score `9/10`, which beats the threshold, all
earlier and all later candidates. -/
theorem find_best_match_spec_witness :
    (9 : ℚ) / 10 = demoSim 9 ∧ 0.75 < (9 : ℚ) / 10 ∧
    ∃ l1 l2, ([5, 9, 8] : List ℕ) = l1 ++ 9 :: l2 ∧
      (∀ x ∈ l1, demoSim x < (9 : ℚ) / 10) ∧
      (∀ x ∈ l2, demoSim x ≤ (9 : ℚ) / 10) :=
  (find_best_match_spec demoSim [5, 9, 8]).2 9 (9 / 10)
    (by norm_num [find_best_match, find_best_loop, demoSim])

/-! ## `src/dawg_loader.rs`: exact membership via the Aho–Corasick automaton
(claim C7)

```rust
pub fn contains_exact(dawg: &DoubleArrayAhoCorasick<u32>, word: &str) -> bool {
    dawg.find_iter(word)
        .any(|m| m.start() == 0 && m.end() == word.len())
}
```

`daachorse`'s `find_iter` has *non-overlapping* standard-matching semantics
(its documented example: patterns `["bcd", "ab", "a"]` over `"abcd"` yield the
matches `(0, 1)` and `(1, 4)` only): scanning from the current restart
position, it reports a match at the first end position where some pattern
occurrence ends, reports the longest such pattern (the earliest start), and
restarts scanning from the end of that match.  The embedding below implements
exactly that semantics over the pattern list of the automaton; positions are
scalar-value indices (every dictionary pattern and probe word here is what the
automaton sees byte-for-byte on ASCII, and positions translate 1:1). -/

/-- The slice `w[s..e)`. -/
def sliceOf (w : List Char) (s e : ℕ) : List Char :=
  (w.drop s).take (e - s)

/-- Does some pattern occurrence end exactly at `e`, starting at or after
`pos`? -/
def matchEndsAt (pats : List (List Char)) (w : List Char) (pos e : ℕ) : Bool :=
  (List.range e).any fun s => pos ≤ s && pats.contains (sliceOf w s e)

/-- The first end position (scanning from `pos`) at which some pattern
occurrence ends — the position where the Aho–Corasick scan first reports. -/
def firstMatchEnd (pats : List (List Char)) (w : List Char) (pos : ℕ) :
    Option ℕ :=
  (List.range (w.length + 1)).find? fun e =>
    decide (pos < e) && matchEndsAt pats w pos e

/-- The start of the match reported at end position `e`: the smallest start
(the longest pattern ending at `e`) at or after `pos`. -/
def firstMatchStart (pats : List (List Char)) (w : List Char) (pos e : ℕ) :
    ℕ :=
  ((List.range e).find? fun s =>
    pos ≤ s && pats.contains (sliceOf w s e)).getD 0

/-- The scan loop of `find_iter`: report the first match from `pos`, then
restart from its end.  The fuel argument (`w.length + 1` at the top level)
bounds the number of reports; each report strictly advances `pos`. -/
def findIterGo (pats : List (List Char)) (w : List Char) :
    ℕ → ℕ → List (ℕ × ℕ)
  | 0, _ => []
  | fuel + 1, pos =>
      match firstMatchEnd pats w pos with
      | none => []
      | some e => (firstMatchStart pats w pos e, e) :: findIterGo pats w fuel e

/-- Embedding of `daachorse`'s `find_iter`: the list of non-overlapping
matches `(start, end)` reported over `w`. -/
def findIter (pats : List (List Char)) (w : List Char) : List (ℕ × ℕ) :=
  findIterGo pats w (w.length + 1) 0

/-- Embedding of `contains_exact` (lines 92–95 of `src/dawg_loader.rs`),
over the automaton's pattern list. -/
def contains_exact (pats : List (List Char)) (w : List Char) : Bool :=
  (findIter pats w).any fun m => m.1 == 0 && m.2 == w.length

/-- Sanity check: the embedding reproduces the documented `daachorse`
`find_iter` example — patterns `["bcd", "ab", "a"]` over `"abcd"` give
matches `(0, 1)` (pattern `"a"`) and `(1, 4)` (pattern `"bcd"`); the
overlapped `"ab"` is never reported. -/
theorem findIter_daachorse_example :
    findIter ["bcd".toList, "ab".toList, "a".toList] "abcd".toList
      = [(0, 1), (1, 4)] := by decide

/-- **C7, code_bug.**  The claim (and the function's own documentation:
"Checks if `word` is an exact match in the DAWG") requires `contains_exact`
to be true exactly when the word is a complete dictionary entry.  But with
the automaton built from the entries `["bon", "bonjour"]` — both are genuine
French dictionary words — the word `"bonjour"` IS a complete entry, yet
`find_iter`'s non-overlapping scan reports `"bon"` at `(0, 3)`, restarts at
position 3, finds nothing in `"jour"`, and never reports a match with start
`0` and end `7`: `contains_exact` returns `false`. -/
theorem contains_exact_misses_full_word :
    ("bonjour".toList ∈ ["bon".toList, "bonjour".toList]) ∧
    findIter ["bon".toList, "bonjour".toList] "bonjour".toList = [(0, 3)] ∧
    contains_exact ["bon".toList, "bonjour".toList] "bonjour".toList = false := by
  refine ⟨by decide, by decide, by decide⟩

/-! ## `src/whisper_integration.rs`: grammar-correction replacements
(claim C8)

```rust
let mut corrected = text.to_string();
// Sort corrections descending by offset to apply without affecting subsequent indices.
let mut matches = lt_response.matches;
matches.sort_by(|a, b| b.offset.cmp(&a.offset));
for m in matches {
    if let Some(replacement) = m.replacements.first() {
        // Convert character offset and length to byte indices.
        let start = corrected.char_indices().nth(m.offset)
            .map(|(byte_idx, _)| byte_idx).unwrap_or(0);
        let end = corrected.char_indices().nth(m.offset + m.length)
            .map(|(byte_idx, _)| byte_idx).unwrap_or_else(|| corrected.len());
        corrected.replace_range(start..end, &replacement.value);
    }
}
```

The HTTP call and JSON parsing are external; the embedding models the pure
replacement phase of `burt_correct_text` (lines 162–201), acting on the parsed
match list.  `char_indices().nth(n)` yields the byte offset of the `n`-th
scalar value when `n` is in range (`byte_index` below), and the computed byte
range always falls on scalar-value boundaries, so `replace_range` on the byte
string is the scalar-level splice performed by `apply_match`; the first
conjunct of the claim theorem proves this byte-level correspondence. -/

/-- One match of the LanguageTool response: the ordered replacement values
(the unused `message` field is omitted), the zero-based scalar-value offset,
and the scalar-value length. -/
structure LTMatch where
  replacements : List (List Char)
  offset : ℕ
  length : ℕ

/-- Model of `corrected.char_indices().nth(n).map(|(byte_idx, _)| byte_idx)`:
the byte offset of the `n`-th scalar value, defined when `n` is in range. -/
def byte_index (cs : List Char) (n : ℕ) : Option ℕ :=
  if n < cs.length then some (rustLen (cs.take n)) else none

/-- One iteration of the replacement loop, at scalar-value level.  `start` is
the char position of the computed byte start (`unwrap_or(0)` gives byte `0`,
i.e. char `0`, when the offset is out of range) and `stop` that of the
computed byte end (`unwrap_or(corrected.len())` gives the char count). -/
def apply_match (cs : List Char) (m : LTMatch) : List Char :=
  match m.replacements with
  | [] => cs
  | repl :: _ =>
      let start := if m.offset < cs.length then m.offset else 0
      let stop := if m.offset + m.length < cs.length then m.offset + m.length
        else cs.length
      cs.take start ++ repl ++ cs.drop stop

/-- The replacement phase of `burt_correct_text`: stable-sort the matches by
descending offset, then apply each in turn. -/
def burt_correct_text_apply (cs : List Char) (ms : List LTMatch) : List Char :=
  (ms.mergeSort fun a b => decide (b.offset ≤ a.offset)).foldl apply_match cs

/-- The simultaneous replacement the specification describes: every match's
range is interpreted at the ORIGINAL scalar-value offsets (the matches are
listed in descending offset order, so the ones in the tail live in the prefix
before the head's offset). -/
def simul_replace (cs : List Char) : List LTMatch → List Char
  | [] => cs
  | m :: rest =>
      match m.replacements with
      | [] => simul_replace cs rest
      | repl :: _ =>
          simul_replace (cs.take m.offset) rest ++ repl
            ++ cs.drop (m.offset + m.length)

theorem apply_match_append (a b : List Char) (m : LTMatch)
    (hlen : 0 < m.length) (hin : m.offset + m.length ≤ a.length) :
    apply_match (a ++ b) m = apply_match a m ++ b := by
  rcases hr : m.replacements with _ | ⟨repl, rest⟩
  · simp [apply_match, hr]
  · have ho : m.offset < a.length := by omega
    have ho' : m.offset < (a ++ b).length := by
      rw [List.length_append]; omega
    simp only [apply_match, hr, if_pos ho, if_pos ho']
    have htake : (a ++ b).take m.offset = a.take m.offset :=
      List.take_append_of_le_length (by omega)
    rcases Nat.lt_or_ge (m.offset + m.length) a.length with hstop | hstop
    · have hstop' : m.offset + m.length < (a ++ b).length := by
        rw [List.length_append]; omega
      simp only [if_pos hstop, if_pos hstop', htake,
        List.drop_append_of_le_length (le_of_lt hstop), List.append_assoc]
    · have hstop2 : m.offset + m.length = a.length := by omega
      have hd1 : (a ++ b).drop (if m.offset + m.length < (a ++ b).length
          then m.offset + m.length else (a ++ b).length) = b := by
        split
        · rw [hstop2, List.drop_left]
        · have hb : b.length = 0 := by
            rw [List.length_append] at *
            omega
          rw [List.eq_nil_of_length_eq_zero hb] at *
          simp
      rw [hd1, if_neg (by omega), List.drop_length, htake, List.append_nil,
        List.append_assoc]

theorem apply_match_length_ge (a : List Char) (m : LTMatch)
    (hlen : 0 < m.length) (hin : m.offset + m.length ≤ a.length) :
    m.offset ≤ (apply_match a m).length := by
  rcases hr : m.replacements with _ | ⟨repl, rest⟩
  · simp only [apply_match, hr]
    omega
  · simp only [apply_match, hr]
    split
    · simp only [List.length_append, List.length_take]
      omega
    · omega

theorem foldl_apply_match_append (ms : List LTMatch) :
    ∀ (a b : List Char),
      List.Pairwise (fun x y => y.offset + y.length ≤ x.offset) ms →
      (∀ x ∈ ms, 0 < x.length ∧ x.offset + x.length ≤ a.length) →
      List.foldl apply_match (a ++ b) ms = List.foldl apply_match a ms ++ b := by
  induction ms with
  | nil => intro a b _ _; rfl
  | cons m rest ih =>
      intro a b hpw hin
      have hm := hin m (List.mem_cons_self m rest)
      rw [List.foldl_cons, List.foldl_cons,
        apply_match_append a b m hm.1 hm.2]
      refine ih (apply_match a m) b (List.Pairwise.sublist (List.sublist_cons_self m rest) hpw) ?_
      intro y hy
      have hb := (List.pairwise_cons.1 hpw).1 y hy
      have := apply_match_length_ge a m hm.1 hm.2
      exact ⟨(hin y (List.mem_cons_of_mem m hy)).1, by omega⟩

theorem foldl_apply_match_simul (ms : List LTMatch) :
    ∀ (cs : List Char),
      List.Pairwise (fun x y => y.offset + y.length ≤ x.offset) ms →
      (∀ x ∈ ms, 0 < x.length ∧ x.offset + x.length ≤ cs.length) →
      List.foldl apply_match cs ms = simul_replace cs ms := by
  induction ms with
  | nil => intro cs _ _; rfl
  | cons m rest ih =>
      intro cs hpw hin
      have hm := hin m (List.mem_cons_self m rest)
      have hpw' := List.pairwise_cons.1 hpw
      rcases hr : m.replacements with _ | ⟨repl, rrest⟩
      · rw [List.foldl_cons]
        have happ : apply_match cs m = cs := by simp [apply_match, hr]
        rw [happ, simul_replace, hr]
        exact ih cs hpw'.2 fun y hy => hin y (List.mem_cons_of_mem m hy)
      · have ho : m.offset < cs.length := by omega
        have happ : apply_match cs m
            = cs.take m.offset ++ (repl ++ cs.drop (m.offset + m.length)) := by
          simp only [apply_match, hr, if_pos ho]
          split
          · rw [List.append_assoc]
          · have : m.offset + m.length = cs.length := by omega
            rw [this, List.append_assoc]
        have hlen : (cs.take m.offset).length = m.offset := by
          rw [List.length_take]
          omega
        have hrange : ∀ y ∈ rest, 0 < y.length ∧
            y.offset + y.length ≤ (cs.take m.offset).length := by
          intro y hy
          have hb := hpw'.1 y hy
          exact ⟨(hin y (List.mem_cons_of_mem m hy)).1, by omega⟩
        rw [List.foldl_cons, happ,
          foldl_apply_match_append rest (cs.take m.offset)
            (repl ++ cs.drop (m.offset + m.length)) hpw'.2 hrange,
          ih (cs.take m.offset) hpw'.2 hrange]
        simp only [simul_replace, hr]
        rw [List.append_assoc]

/-- **C8, confirmed.**  First conjunct: the byte range computed by
`burt_correct_text` for a match in range — byte start
`char_indices().nth(offset)` and byte end `char_indices().nth(offset+length)`
with its `unwrap_or` defaults — delimits exactly the UTF-8 encoding of scalar
values `[offset, offset+length)`, and splicing the replacement into the byte
string at that range is exactly the scalar-level replacement, also in the
presence of multi-byte characters before the offset.  Second conjunct: the
replacement phase applies the matches in descending offset order
(`burt_correct_text_apply` sorts them), and on any family of in-range,
non-overlapping matches the result is the simultaneous replacement at the
ORIGINAL scalar offsets — no earlier-applied replacement invalidates the
offsets of later ones. -/
theorem burt_replacement_indexing :
    (∀ (cs repl : List Char) (offset len : ℕ), 0 < len →
      offset + len ≤ cs.length →
      (byte_index cs offset).getD 0 = rustLen (cs.take offset) ∧
      (byte_index cs (offset + len)).getD (rustLen cs)
        = rustLen (cs.take (offset + len)) ∧
      (utf8Encode cs).take (rustLen (cs.take offset)) ++ utf8Encode repl ++
          (utf8Encode cs).drop (rustLen (cs.take (offset + len)))
        = utf8Encode (cs.take offset ++ repl ++ cs.drop (offset + len))) ∧
    (∀ (cs : List Char) (ms : List LTMatch),
      List.Pairwise (fun x y => y.offset + y.length ≤ x.offset) ms →
      (∀ x ∈ ms, 0 < x.length ∧ x.offset + x.length ≤ cs.length) →
      burt_correct_text_apply cs ms = simul_replace cs ms) := by
  constructor
  · intro cs repl offset len h1 h2
    refine ⟨by rw [byte_index, if_pos (by omega)]; rfl, ?_, ?_⟩
    · rw [byte_index]
      split
      · rfl
      · have hol : offset + len = cs.length := by omega
        rw [hol, List.take_length]
        rfl
    · have hsplit1 : utf8Encode cs
          = utf8Encode (cs.take offset) ++ utf8Encode (cs.drop offset) := by
        rw [← utf8Encode_append, List.take_append_drop]
      have hsplit2 : utf8Encode cs
          = utf8Encode (cs.take (offset + len))
            ++ utf8Encode (cs.drop (offset + len)) := by
        rw [← utf8Encode_append, List.take_append_drop]
      have htake : (utf8Encode cs).take (rustLen (cs.take offset))
          = utf8Encode (cs.take offset) := by
        rw [hsplit1]
        exact List.take_left' rfl
      have hdrop : (utf8Encode cs).drop (rustLen (cs.take (offset + len)))
          = utf8Encode (cs.drop (offset + len)) := by
        rw [hsplit2]
        exact List.drop_left' rfl
      rw [htake, hdrop, utf8Encode_append, utf8Encode_append]
  · intro cs ms hpw hin
    rw [burt_correct_text_apply,
      List.mergeSort_of_sorted
        (hpw.imp fun h => decide_eq_true
          (Nat.le_trans (Nat.le_add_right _ _) h))]
    exact foldl_apply_match_simul ms cs hpw hin

/-- Witness for `burt_replacement_indexing`, realizing the specification's
scenario: a match `{offset: 7, length: 3, replacements: ["ment"]}` over a
string with multi-byte characters before offset 7, plus a two-match
descending application. -/
theorem burt_replacement_indexing_witness :
    ((byte_index "héélo wörld".toList 7).getD 0
        = rustLen ("héélo wörld".toList.take 7) ∧
      (byte_index "héélo wörld".toList (7 + 3)).getD (rustLen "héélo wörld".toList)
        = rustLen ("héélo wörld".toList.take (7 + 3)) ∧
      (utf8Encode "héélo wörld".toList).take (rustLen ("héélo wörld".toList.take 7))
          ++ utf8Encode "ment".toList
          ++ (utf8Encode "héélo wörld".toList).drop
              (rustLen ("héélo wörld".toList.take (7 + 3)))
        = utf8Encode ("héélo wörld".toList.take 7 ++ "ment".toList
            ++ "héélo wörld".toList.drop (7 + 3))) ∧
    (burt_correct_text_apply "ab cde".toList
        [⟨["xy".toList], 3, 2⟩, ⟨["z".toList], 0, 2⟩]
      = simul_replace "ab cde".toList
          [⟨["xy".toList], 3, 2⟩, ⟨["z".toList], 0, 2⟩]) :=
  ⟨burt_replacement_indexing.1 "héélo wörld".toList "ment".toList 7 3
      (by decide) (by decide),
    burt_replacement_indexing.2 "ab cde".toList
      [⟨["xy".toList], 3, 2⟩, ⟨["z".toList], 0, 2⟩]
      (by decide) (by decide)⟩

/-! ## `src/whisper_integration.rs`: tag and whitespace cleanup (claim C9)

```rust
pub fn clean_whisper_text(original: &str) -> String {
    let re_beg = Regex::new(r"\\[_BEG_\\]").unwrap();
    let re_tt = Regex::new(r"\\[_TT_\\d+\\]").unwrap();
    let mut clean = re_beg.replace_all(original, "").to_string();
    clean = re_tt.replace_all(&clean, "").to_string();
    let re_spaces = Regex::new(r"\\s+").unwrap();
    clean = re_spaces.replace_all(&clean, " ").to_string();
    ...
}
```

The normalization step (the value `clean`, before the external grammar
correction and the merge pass) is modelled here.  `replace_all` scans for
non-overlapping leftmost matches and replaces each in a single pass, without
rescanning the produced text; the three embedded scanners below implement
exactly that.  (They are written with an explicit skip counter / state flag so
they are structurally recursive, hence kernel-evaluable.) -/

/-- The begin-of-stream marker `[_BEG_]`. -/
def begTag : List Char := ['[', '_', 'B', 'E', 'G', '_', ']']

/-- The scanner of `re_beg.replace_all(original, \"\")`: a positive skip
counter drops the remainder of a recognized tag; at skip `0`, a tag occurrence
starting here is deleted (skip its 6 remaining characters) and scanning
resumes after it; otherwise the character is kept. -/
def remove_beg_go : ℕ → List Char → List Char
  | _, [] => []
  | n + 1, _ :: rest => remove_beg_go n rest
  | 0, c :: rest =>
      if begTag.isPrefixOf (c :: rest) then remove_beg_go 6 rest
      else c :: remove_beg_go 0 rest

/-- `re_beg.replace_all(original, \"\")`. -/
def remove_beg (s : List Char) : List Char := remove_beg_go 0 s

/-- If the pattern `[_TT_<digits>]` (at least one digit) starts at `s`, the
scalar length of that tag, else `none`. -/
def ttTagLen (s : List Char) : Option ℕ :=
  if ['[', '_', 'T', 'T', '_'].isPrefixOf s then
    let ds := (s.drop 5).takeWhile Char.isDigit
    if ds.isEmpty then none
    else if ((s.drop 5).dropWhile Char.isDigit).head? = some ']' then
      some (6 + ds.length)
    else none
  else none

/-- The scanner of `re_tt.replace_all(&clean, \"\")`. -/
def remove_tt_go : ℕ → List Char → List Char
  | _, [] => []
  | n + 1, _ :: rest => remove_tt_go n rest
  | 0, c :: rest =>
      match ttTagLen (c :: rest) with
      | some L => remove_tt_go (L - 1) rest
      | none => c :: remove_tt_go 0 rest

/-- `re_tt.replace_all(&clean, \"\")`. -/
def remove_tt (s : List Char) : List Char := remove_tt_go 0 s

/-- The `regex` crate's `\\s` class (Unicode White_Space). -/
def rustIsSpace (c : Char) : Bool :=
  c == ' ' || c == '\t' || c == '\n' || c == '\x0b' || c == '\x0c' ||
  c == '\r' || c == '\u0085' || c == '\u00A0' || c == '\u1680' ||
  (decide ('\u2000' ≤ c) && decide (c ≤ '\u200A')) || c == '\u2028' ||
  c == '\u2029' || c == '\u202F' || c == '\u205F' || c == '\u3000'

/-- The scanner of `re_spaces.replace_all(&clean, \" \")`: each maximal run of
whitespace becomes one space; the flag records whether the scan is inside a
run whose space has already been emitted. -/
def collapse_ws_go : Bool → List Char → List Char
  | _, [] => []
  | inRun, c :: rest =>
      if rustIsSpace c then
        if inRun then collapse_ws_go true rest
        else ' ' :: collapse_ws_go true rest
      else c :: collapse_ws_go false rest

/-- `re_spaces.replace_all(&clean, \" \")`. -/
def collapse_ws (s : List Char) : List Char := collapse_ws_go false s

/-- The normalization step of `clean_whisper_text` (lines 126–133 of
`src/whisper_integration.rs`): strip `[_BEG_]` tags, strip `[_TT_<digits>]`
tags, collapse whitespace runs to single spaces. -/
def clean_whisper_text_norm (s : List Char) : List Char :=
  collapse_ws (remove_tt (remove_beg s))

/-- Substring test: does `pat` occur contiguously in the list? -/
def hasSub (pat : List Char) : List Char → Bool
  | [] => pat.isEmpty
  | c :: rest => pat.isPrefixOf (c :: rest) || hasSub pat rest

/-- **C9, counterexample.**  The input `"[_BE[_BEG_]G_]  [_TT_3]"` contains a
begin marker tag, a numbered timing tag and repeated whitespace, but the
single-pass `replace_all` deletes only the inner occurrence of `[_BEG_]`,
re-folding the surrounding characters into a NEW `[_BEG_]` occurrence that
survives into the cleaned output — the claim's "contains no occurrence of
either marker substring" fails on it. -/
theorem clean_whisper_refold_counterexample :
    hasSub begTag "[_BE[_BEG_]G_]  [_TT_3]".toList = true ∧
    hasSub "[_TT_3]".toList "[_BE[_BEG_]G_]  [_TT_3]".toList = true ∧
    hasSub [' ', ' '] "[_BE[_BEG_]G_]  [_TT_3]".toList = true ∧
    hasSub begTag (clean_whisper_text_norm "[_BE[_BEG_]G_]  [_TT_3]".toList)
      = true := by
  refine ⟨by decide, by decide, by decide, by decide⟩

theorem hasSub_subset (pat l : List Char) (h : hasSub pat l = true) :
    ∀ c ∈ pat, c ∈ l := by
  induction l with
  | nil =>
      intro c hc
      rw [hasSub, List.isEmpty_iff] at h
      subst h
      simp at hc
  | cons x rest ih =>
      intro c hc
      rw [hasSub, Bool.or_eq_true] at h
      rcases h with h | h
      · exact (List.isPrefixOf_iff_prefix.1 h).subset hc
      · exact List.mem_cons_of_mem x (ih h c hc)

theorem collapse_ws_go_mem (s : List Char) :
    ∀ (b : Bool) (c : Char), c ∈ collapse_ws_go b s → c = ' ' ∨ c ∈ s := by
  induction s with
  | nil => intro b c hc; simp [collapse_ws_go] at hc
  | cons x rest ih =>
      intro b c hc
      rw [collapse_ws_go] at hc
      split at hc
      · split at hc
        · rcases ih true c hc with h | h
          · exact Or.inl h
          · exact Or.inr (List.mem_cons_of_mem x h)
        · rcases List.mem_cons.1 hc with h | h
          · exact Or.inl h
          · rcases ih true c h with h' | h'
            · exact Or.inl h'
            · exact Or.inr (List.mem_cons_of_mem x h')
      · rcases List.mem_cons.1 hc with h | h
        · exact Or.inr (h ▸ List.mem_cons_self x rest)
        · rcases ih false c h with h' | h'
          · exact Or.inl h'
          · exact Or.inr (List.mem_cons_of_mem x h')

theorem collapse_ws_go_true_head (s : List Char) :
    collapse_ws_go true s = []
    ∨ ∃ c t, collapse_ws_go true s = c :: t ∧ rustIsSpace c = false := by
  induction s with
  | nil => exact Or.inl rfl
  | cons x rest ih =>
      rw [collapse_ws_go]
      by_cases hx : rustIsSpace x = true
      · rw [if_pos hx, if_pos rfl]
        exact ih
      · rw [if_neg hx]
        exact Or.inr ⟨x, collapse_ws_go false rest, rfl,
          Bool.not_eq_true _ ▸ hx⟩

theorem space_is_space : rustIsSpace ' ' = true := by decide

theorem collapse_ws_go_no_double_space (s : List Char) :
    ∀ b, hasSub [' ', ' '] (collapse_ws_go b s) = false := by
  induction s with
  | nil => intro b; rfl
  | cons x rest ih =>
      intro b
      rw [collapse_ws_go]
      by_cases hx : rustIsSpace x = true
      · rw [if_pos hx]
        by_cases hb : b = true
        · rw [if_pos hb]
          exact ih true
        · rw [if_neg hb, hasSub, Bool.or_eq_false_iff]
          refine ⟨?_, ih true⟩
          rcases collapse_ws_go_true_head rest with h | ⟨c, t, h, hc⟩
          · rw [h]; rfl
          · rw [h]
            have : (' ' == c) = false := by
              refine beq_eq_false_iff_ne.2 fun hcc => ?_
              rw [← hcc] at hc
              rw [space_is_space] at hc
              exact Bool.true_eq_false ▸ hc
            simp [List.isPrefixOf, this]
      · rw [if_neg hx, hasSub, Bool.or_eq_false_iff]
        refine ⟨?_, ih false⟩
        have : (' ' == x) = false := by
          refine beq_eq_false_iff_ne.2 fun hcc => ?_
          rw [← hcc] at hx
          exact hx space_is_space
        simp [List.isPrefixOf, this]

theorem remove_beg_go_drop (n : ℕ) :
    ∀ s : List Char, remove_beg_go n s = remove_beg (s.drop n) := by
  induction n with
  | zero => intro s; rfl
  | succ n ih =>
      intro s
      cases s with
      | nil => rfl
      | cons c rest => rw [remove_beg_go, ih, List.drop_succ_cons]

theorem remove_beg_cons (c : Char) (rest : List Char) :
    remove_beg (c :: rest)
      = if begTag.isPrefixOf (c :: rest) then remove_beg (rest.drop 6)
        else c :: remove_beg rest := by
  rw [remove_beg, remove_beg_go]
  split
  · rw [remove_beg_go_drop]
  · rfl

theorem remove_beg_tag (rest : List Char) :
    remove_beg (begTag ++ rest) = remove_beg rest := by
  rw [show begTag ++ rest = '[' :: ('_' :: 'B' :: 'E' :: 'G' :: '_' :: ']' :: rest) from rfl,
    remove_beg_cons, if_pos]
  · rfl
  · exact List.isPrefixOf_iff_prefix.2 ⟨rest, rfl⟩

theorem remove_beg_cons_ne (c : Char) (rest : List Char) (hc : c ≠ '[') :
    remove_beg (c :: rest) = c :: remove_beg rest := by
  rw [remove_beg_cons, if_neg]
  intro h
  have := (List.isPrefixOf_iff_prefix.1 h).subset (List.mem_cons_self '[' _)
  rcases List.mem_cons.1 this with h' | h'
  · exact hc h'.symm
  · have hpre := List.isPrefixOf_iff_prefix.1 h
    rcases hpre with ⟨t, ht⟩
    have : begTag.head? = (c :: rest).head? := by rw [← ht]; rfl
    simp only [begTag, List.head?] at this
    exact hc (Option.some.inj this).symm

theorem remove_beg_txt (t : List Char) (ht : ∀ ch ∈ t, ch ≠ '[') :
    ∀ rest : List Char, remove_beg (t ++ rest) = t ++ remove_beg rest := by
  induction t with
  | nil => intro rest; rfl
  | cons c t' ih =>
      intro rest
      rw [List.cons_append,
        remove_beg_cons_ne c _ (ht c (List.mem_cons_self c t')),
        ih (fun ch hch => ht ch (List.mem_cons_of_mem c hch)) rest]
      rfl

/-- Rendering of a `[_TT_<digits>]` tag from its digit list. -/
def ttRender (ds : List Char) : List Char :=
  '[' :: '_' :: 'T' :: 'T' :: '_' :: (ds ++ [']'])

theorem takeWhile_all_append (p : Char → Bool) (ds : List Char) (x : Char)
    (r : List Char) (hds : ∀ c ∈ ds, p c = true) (hx : p x = false) :
    ((ds ++ x :: r).takeWhile p = ds) ∧ ((ds ++ x :: r).dropWhile p = x :: r) := by
  induction ds with
  | nil =>
      constructor
      · rw [List.nil_append, List.takeWhile_cons, hx]
        simp
      · rw [List.nil_append, List.dropWhile_cons, hx]
        simp
  | cons c ds' ih =>
      obtain ⟨ih1, ih2⟩ := ih fun d hd => hds d (List.mem_cons_of_mem c hd)
      have hc := hds c (List.mem_cons_self c ds')
      constructor
      · rw [List.cons_append, List.takeWhile_cons, hc]
        simp only [if_true, ih1]
      · rw [List.cons_append, List.dropWhile_cons, hc]
        simp only [if_true, ih2]

theorem remove_tt_go_drop (n : ℕ) :
    ∀ s : List Char, remove_tt_go n s = remove_tt (s.drop n) := by
  induction n with
  | zero => intro s; rfl
  | succ n ih =>
      intro s
      cases s with
      | nil => rfl
      | cons c rest => rw [remove_tt_go, ih, List.drop_succ_cons]

theorem remove_tt_cons (c : Char) (rest : List Char) :
    remove_tt (c :: rest)
      = match ttTagLen (c :: rest) with
        | some L => remove_tt (rest.drop (L - 1))
        | none => c :: remove_tt rest := by
  rw [remove_tt, remove_tt_go]
  cases h : ttTagLen (c :: rest) with
  | none => rfl
  | some L => exact remove_tt_go_drop (L - 1) rest

theorem head_eq_of_isPrefixOf_cons (a : Char) (as : List Char) (c : Char)
    (xs : List Char) (h : (a :: as).isPrefixOf (c :: xs) = true) : a = c := by
  rcases List.isPrefixOf_iff_prefix.1 h with ⟨t, ht⟩
  have hh : ((a :: as) ++ t).head? = (c :: xs).head? := by rw [ht]
  simp only [List.cons_append, List.head?] at hh
  exact Option.some.inj hh

theorem ttTagLen_cons_ne (c : Char) (rest : List Char) (hc : c ≠ '[') :
    ttTagLen (c :: rest) = none := by
  rw [ttTagLen, if_neg]
  intro h
  exact hc (head_eq_of_isPrefixOf_cons '[' _ c rest h).symm

theorem remove_tt_cons_ne (c : Char) (rest : List Char) (hc : c ≠ '[') :
    remove_tt (c :: rest) = c :: remove_tt rest := by
  rw [remove_tt_cons, ttTagLen_cons_ne c rest hc]

theorem remove_tt_txt (t : List Char) (ht : ∀ ch ∈ t, ch ≠ '[') :
    ∀ rest : List Char, remove_tt (t ++ rest) = t ++ remove_tt rest := by
  induction t with
  | nil => intro rest; rfl
  | cons c t' ih =>
      intro rest
      rw [List.cons_append,
        remove_tt_cons_ne c _ (ht c (List.mem_cons_self c t')),
        ih (fun ch hch => ht ch (List.mem_cons_of_mem c hch)) rest]
      rfl

theorem ttTagLen_tag (ds : List Char) (rest : List Char) (h1 : ds ≠ [])
    (h2 : ∀ c ∈ ds, Char.isDigit c = true) :
    ttTagLen (ttRender ds ++ rest) = some (6 + ds.length) := by
  rw [ttTagLen, if_pos]
  · have hdrop : (ttRender ds ++ rest).drop 5 = ds ++ ']' :: rest := by
      simp [ttRender]
    obtain ⟨htw, hdw⟩ := takeWhile_all_append Char.isDigit ds ']' rest h2 (by decide)
    rw [hdrop, htw, hdw]
    rw [if_neg (by simp [h1])]
    simp
  · exact List.isPrefixOf_iff_prefix.2 ⟨ds ++ [']'] ++ rest, by simp [ttRender]⟩

theorem remove_tt_tag (ds : List Char) (rest : List Char) (h1 : ds ≠ [])
    (h2 : ∀ c ∈ ds, Char.isDigit c = true) :
    remove_tt (ttRender ds ++ rest) = remove_tt rest := by
  have hshape : ttRender ds ++ rest
      = '[' :: ('_' :: 'T' :: 'T' :: '_' :: (ds ++ [']']) ++ rest) := by
    simp [ttRender]
  rw [hshape, remove_tt_cons]
  have htag : ttTagLen ('[' :: ('_' :: 'T' :: 'T' :: '_' :: (ds ++ [']']) ++ rest))
      = some (6 + ds.length) := by
    rw [← hshape]
    exact ttTagLen_tag ds rest h1 h2
  simp only [htag]
  have hlen : ('_' :: 'T' :: 'T' :: '_' :: (ds ++ [']'])).length
      = 5 + ds.length := by simp; omega
  have : ('_' :: 'T' :: 'T' :: '_' :: (ds ++ [']']) ++ rest).drop (6 + ds.length - 1)
      = rest := by
    rw [show 6 + ds.length - 1 = 5 + ds.length from by omega]
    exact List.drop_left' hlen
  rw [this]


theorem remove_tt_begTag (rest : List Char) :
    remove_tt (begTag ++ rest) = begTag ++ remove_tt rest := by
  have hshape : begTag ++ rest
      = '[' :: ('_' :: 'B' :: 'E' :: 'G' :: '_' :: ']' :: rest) := rfl
  rw [hshape, remove_tt_cons]
  have hnone : ttTagLen ('[' :: ('_' :: 'B' :: 'E' :: 'G' :: '_' :: ']' :: rest))
      = none := by
    rw [ttTagLen, if_neg]
    intro h
    simp [List.isPrefixOf] at h
  simp only [hnone]
  have htxt := remove_tt_txt ['_', 'B', 'E', 'G', '_', ']'] (by decide) rest
  simp only [List.cons_append, List.nil_append] at htxt
  rw [htxt]
  rfl

theorem remove_beg_tt (ds : List Char) (rest : List Char)
    (h2 : ∀ c ∈ ds, Char.isDigit c = true) :
    remove_beg (ttRender ds ++ rest) = ttRender ds ++ remove_beg rest := by
  have hshape : ttRender ds ++ rest
      = '[' :: (('_' :: 'T' :: 'T' :: '_' :: (ds ++ [']'])) ++ rest) := by
    simp [ttRender]
  rw [hshape, remove_beg_cons, if_neg]
  · have ht : ∀ ch ∈ ('_' :: 'T' :: 'T' :: '_' :: (ds ++ [']'])), ch ≠ '[' := by
      intro ch hch
      rcases List.mem_cons.1 hch with h | hch
      · subst h; decide
      rcases List.mem_cons.1 hch with h | hch
      · subst h; decide
      rcases List.mem_cons.1 hch with h | hch
      · subst h; decide
      rcases List.mem_cons.1 hch with h | hch
      · subst h; decide
      rcases List.mem_append.1 hch with h | h
      · intro heq
        rw [heq] at h
        exact absurd (h2 '[' h) (by decide)
      · have h' := List.mem_singleton.1 h
        subst h'
        decide
    rw [remove_beg_txt _ ht rest]
    simp [ttRender]
  · simp [List.isPrefixOf, List.cons_append]

/-- The input grammar of the C9 cleanup property: a sequence of complete
begin markers, complete numbered tags, and bracket-free text segments. -/
inductive TPiece where
  | beg : TPiece
  | tt : List Char → TPiece
  | txt : List Char → TPiece

/-- Rendering of one piece. -/
def TPiece.render : TPiece → List Char
  | .beg => begTag
  | .tt ds => ttRender ds
  | .txt t => t

/-- Well-formedness: numbered tags carry at least one digit and only digits;
text segments contain no `[`. -/
def goodPiece : TPiece → Bool
  | .beg => true
  | .tt ds => !ds.isEmpty && ds.all Char.isDigit
  | .txt t => t.all fun c => c != '['

def isBegPiece : TPiece → Bool
  | .beg => true
  | _ => false

def isTTPiece : TPiece → Bool
  | .tt _ => true
  | _ => false

/-- Rendering of a piece sequence. -/
def renderAll (ps : List TPiece) : List Char :=
  (ps.map TPiece.render).flatten

theorem renderAll_cons (p : TPiece) (ps : List TPiece) :
    renderAll (p :: ps) = p.render ++ renderAll ps := by
  simp [renderAll]

theorem goodPiece_tt_elim (ds : List Char)
    (hg : goodPiece (TPiece.tt ds) = true) :
    ds ≠ [] ∧ ∀ c ∈ ds, Char.isDigit c = true := by
  simp only [goodPiece, Bool.and_eq_true, List.all_eq_true] at hg
  refine ⟨fun hnil => ?_, hg.2⟩
  rw [hnil] at hg
  exact absurd hg.1 (by decide)

theorem goodPiece_txt_elim (t : List Char)
    (hg : goodPiece (TPiece.txt t) = true) :
    ∀ c ∈ t, c ≠ '[' := by
  simp only [goodPiece, List.all_eq_true] at hg
  intro c hc
  exact bne_iff_ne.1 (hg c hc)

theorem remove_beg_renderAll (ps : List TPiece)
    (hgood : ∀ p ∈ ps, goodPiece p = true) :
    remove_beg (renderAll ps)
      = renderAll (ps.filter fun p => !isBegPiece p) := by
  induction ps with
  | nil => rfl
  | cons p ps' ih =>
      have hg := hgood p (List.mem_cons_self p ps')
      have ih' := ih fun q hq => hgood q (List.mem_cons_of_mem p hq)
      cases p with
      | beg =>
          rw [renderAll_cons]
          show remove_beg (begTag ++ renderAll ps') = _
          rw [remove_beg_tag, ih']
          simp [List.filter_cons, isBegPiece]
      | tt ds =>
          obtain ⟨_, h2⟩ := goodPiece_tt_elim ds hg
          rw [renderAll_cons]
          show remove_beg (ttRender ds ++ renderAll ps') = _
          rw [remove_beg_tt ds _ h2, ih']
          simp [List.filter_cons, isBegPiece, renderAll_cons, TPiece.render]
      | txt t =>
          rw [renderAll_cons]
          show remove_beg (t ++ renderAll ps') = _
          rw [remove_beg_txt t (goodPiece_txt_elim t hg), ih']
          simp [List.filter_cons, isBegPiece, renderAll_cons, TPiece.render]

theorem remove_tt_renderAll (ps : List TPiece)
    (hgood : ∀ p ∈ ps, goodPiece p = true) :
    remove_tt (renderAll ps)
      = renderAll (ps.filter fun p => !isTTPiece p) := by
  induction ps with
  | nil => rfl
  | cons p ps' ih =>
      have hg := hgood p (List.mem_cons_self p ps')
      have ih' := ih fun q hq => hgood q (List.mem_cons_of_mem p hq)
      cases p with
      | beg =>
          rw [renderAll_cons]
          show remove_tt (begTag ++ renderAll ps') = _
          rw [remove_tt_begTag, ih']
          simp [List.filter_cons, isTTPiece, renderAll_cons, TPiece.render]
      | tt ds =>
          obtain ⟨h1, h2⟩ := goodPiece_tt_elim ds hg
          rw [renderAll_cons]
          show remove_tt (ttRender ds ++ renderAll ps') = _
          rw [remove_tt_tag ds _ h1 h2, ih']
          simp [List.filter_cons, isTTPiece]
      | txt t =>
          rw [renderAll_cons]
          show remove_tt (t ++ renderAll ps') = _
          rw [remove_tt_txt t (goodPiece_txt_elim t hg), ih']
          simp [List.filter_cons, isTTPiece, renderAll_cons, TPiece.render]

theorem renderAll_no_bracket (qs : List TPiece)
    (h : ∀ p ∈ qs, goodPiece p = true ∧ isBegPiece p = false
      ∧ isTTPiece p = false) :
    '[' ∉ renderAll qs := by
  induction qs with
  | nil => simp [renderAll]
  | cons p qs' ih =>
      have hp := h p (List.mem_cons_self p qs')
      have ih' := ih fun q hq => h q (List.mem_cons_of_mem p hq)
      rw [renderAll_cons]
      intro hmem
      rcases List.mem_append.1 hmem with hmem | hmem
      · cases p with
        | beg => exact absurd hp.2.1 (by simp [isBegPiece])
        | tt ds => exact absurd hp.2.2 (by simp [isTTPiece])
        | txt t => exact goodPiece_txt_elim t hp.1 '[' hmem rfl
      · exact ih' hmem

/-- **C9, amended.**  For inputs built from complete marker tags and
bracket-free text (so that the single-pass `replace_all` cannot re-fold a
split marker — see `clean_whisper_refold_counterexample` for why some
restriction is forced), the cleaned text contains no occurrence of the
begin-marker substring, no occurrence of any numbered-tag substring, and no
run of two or more consecutive spaces; the no-double-space part needs no
restriction at all (it is proved for every input by
`collapse_ws_go_no_double_space`). -/
theorem clean_whisper_text_cleanup (ps : List TPiece)
    (hgood : ∀ p ∈ ps, goodPiece p = true) :
    hasSub begTag (clean_whisper_text_norm (renderAll ps)) = false ∧
    (∀ ds : List Char,
      hasSub (ttRender ds) (clean_whisper_text_norm (renderAll ps)) = false) ∧
    hasSub [' ', ' '] (clean_whisper_text_norm (renderAll ps)) = false := by
  have h1 := remove_beg_renderAll ps hgood
  have hgood1 : ∀ p ∈ ps.filter (fun p => !isBegPiece p), goodPiece p = true :=
    fun p hp => hgood p (List.mem_of_mem_filter hp)
  have h2 := remove_tt_renderAll (ps.filter fun p => !isBegPiece p) hgood1
  have hnb : '[' ∉ renderAll
      ((ps.filter fun p => !isBegPiece p).filter fun p => !isTTPiece p) := by
    refine renderAll_no_bracket _ fun p hp => ?_
    have hp2 := List.mem_filter.1 hp
    have hp3 := List.mem_filter.1 hp2.1
    refine ⟨hgood p hp3.1, ?_, ?_⟩
    · simpa using hp3.2
    · simpa using hp2.2
  have hout : ∀ c ∈ clean_whisper_text_norm (renderAll ps), c ≠ '[' := by
    intro c hc
    rw [clean_whisper_text_norm, h1, h2, collapse_ws] at hc
    rcases collapse_ws_go_mem _ false c hc with h | h
    · subst h; decide
    · intro heq
      rw [heq] at h
      exact hnb h
  refine ⟨?_, fun ds => ?_, ?_⟩
  · cases hb : hasSub begTag (clean_whisper_text_norm (renderAll ps)) with
    | false => rfl
    | true =>
        exact absurd rfl
          (hout '[' (hasSub_subset _ _ hb '[' (by decide)))
  · cases hb : hasSub (ttRender ds) (clean_whisper_text_norm (renderAll ps)) with
    | false => rfl
    | true =>
        exact absurd rfl
          (hout '[' (hasSub_subset _ _ hb '['
            (List.mem_cons_self '[' _)))
  · rw [clean_whisper_text_norm, collapse_ws]
    exact collapse_ws_go_no_double_space _ false

/-- Witness for `clean_whisper_text_cleanup`: a begin marker, a numbered tag
`[_TT_42]`, and two bracket-free text segments with repeated whitespace. -/
theorem clean_whisper_text_cleanup_witness :
    hasSub begTag (clean_whisper_text_norm (renderAll
      [TPiece.beg, TPiece.txt "  bonjour ".toList, TPiece.tt ['4', '2'],
        TPiece.txt " le  monde".toList])) = false ∧
    (∀ ds : List Char,
      hasSub (ttRender ds) (clean_whisper_text_norm (renderAll
        [TPiece.beg, TPiece.txt "  bonjour ".toList, TPiece.tt ['4', '2'],
          TPiece.txt " le  monde".toList])) = false) ∧
    hasSub [' ', ' '] (clean_whisper_text_norm (renderAll
      [TPiece.beg, TPiece.txt "  bonjour ".toList, TPiece.tt ['4', '2'],
        TPiece.txt " le  monde".toList])) = false :=
  clean_whisper_text_cleanup
    [TPiece.beg, TPiece.txt "  bonjour ".toList, TPiece.tt ['4', '2'],
      TPiece.txt " le  monde".toList]
    (by
      intro p hp
      simp only [List.mem_cons, List.not_mem_nil, or_false] at hp
      rcases hp with rfl | rfl | rfl | rfl
      · decide
      · decide
      · decide
      · decide)

/-! ## `src/whisper_integration.rs`: tokenizer and repair pipeline
(claims C3, C10)

```rust
fn get_token_matches(text: &str) -> Vec<regex::Match> {
    let re = Regex::new(r"\p{L}+(?:[’']\p{L}+)*").unwrap();
    re.find_iter(text).collect()
}
```

Tokens are maximal letter runs optionally extended by apostrophe-joined
letter runs; the letter class `\p{L}` is an oracle parameter `isL`.  Instead
of byte spans into the text, the embedding represents the tokenization as the
equivalent decomposition `(gap, token) list + trailing gap` — `scanParts` —
whose concatenation provably reassembles the input
(`scanParts_reassemble`); the cursor arithmetic of
`merge_separated_words_dawg_regex` (`last_end`, `token_start`, `i`) becomes
structural recursion over that decomposition. -/

/-- The apostrophe class `[’']` of the token regex. -/
def isApos (c : Char) : Bool := c == '\'' || c == '’'

theorem dropWhile_head_false (p : Char → Bool) :
    ∀ (s : List Char) (c : Char) (t : List Char),
      s.dropWhile p = c :: t → p c = false := by
  intro s
  induction s with
  | nil => intro c t h; simp at h
  | cons x xs ih =>
      intro c t h
      rw [List.dropWhile_cons] at h
      by_cases hx : p x = true
      · rw [if_pos hx] at h
        exact ih c t h
      · rw [if_neg hx] at h
        injection h with h1 _
        subst h1
        exact Bool.not_eq_true _ ▸ hx

/-- The greedy `(?:[’']\p{L}+)*` tail of a token: returns the consumed
characters and the remaining input. -/
def apoRuns (isL : Char → Bool) : List Char → List Char × List Char
  | [] => ([], [])
  | c :: rest =>
      if isApos c && !(rest.takeWhile isL).isEmpty then
        let more := apoRuns isL (rest.dropWhile isL)
        (c :: (rest.takeWhile isL ++ more.1), more.2)
      else ([], c :: rest)
termination_by s => s.length
decreasing_by
  simp only [List.length_cons]
  exact Nat.lt_succ_of_le ((List.dropWhile_sublist isL).length_le)

theorem apoRuns_append (isL : Char → Bool) :
    ∀ (n : ℕ) (s : List Char), s.length ≤ n →
      (apoRuns isL s).1 ++ (apoRuns isL s).2 = s := by
  intro n
  induction n with
  | zero =>
      intro s hs
      rw [List.length_eq_zero.1 (Nat.le_zero.1 hs)]
      simp [apoRuns]
  | succ n ih =>
      intro s hs
      cases s with
      | nil => simp [apoRuns]
      | cons c rest =>
          rw [apoRuns]
          split
          · have hsub : (rest.dropWhile isL).length ≤ n := by
              have := (List.dropWhile_sublist isL (l := rest)).length_le
              simp only [List.length_cons] at hs
              omega
            have hrec := ih (rest.dropWhile isL) hsub
            simp only [List.cons_append, List.append_assoc, hrec]
            rw [List.takeWhile_append_dropWhile]
          · rfl

theorem apoRuns_snd_length_le (isL : Char → Bool) :
    ∀ (n : ℕ) (s : List Char), s.length ≤ n →
      (apoRuns isL s).2.length ≤ s.length := by
  intro n
  induction n with
  | zero =>
      intro s hs
      rw [List.length_eq_zero.1 (Nat.le_zero.1 hs)]
      simp [apoRuns]
  | succ n ih =>
      intro s hs
      cases s with
      | nil => simp [apoRuns]
      | cons c rest =>
          rw [apoRuns]
          split
          · have hlen := (List.dropWhile_sublist isL (l := rest)).length_le
            simp only [List.length_cons] at hs
            have hrec := ih (rest.dropWhile isL) (by omega)
            simp only [List.length_cons]
            omega
          · exact Nat.le_refl _

/-- The tokenizer (`get_token_matches`), as a decomposition: the list of
`(gap before token, token)` pairs in document order, plus the trailing gap
after the last token.  Each token is a maximal `\p{L}` run followed by the
greedy apostrophe-joined tail. -/
def scanParts (isL : Char → Bool) (s : List Char) :
    List (List Char × List Char) × List Char :=
  match h : s.dropWhile fun c => !isL c with
  | [] => ([], s.takeWhile fun c => !isL c)
  | c :: t =>
      let ar := apoRuns isL (t.dropWhile isL)
      let res := scanParts isL ar.2
      (((s.takeWhile fun c => !isL c), (c :: t.takeWhile isL) ++ ar.1) :: res.1,
        res.2)
termination_by s.length
decreasing_by
  have h0 : (c :: t).length ≤ s.length := h ▸ (List.dropWhile_sublist _).length_le
  have h1 : (apoRuns isL (t.dropWhile isL)).2.length ≤ (t.dropWhile isL).length :=
    apoRuns_snd_length_le isL _ _ (Nat.le_refl _)
  have h2 : (t.dropWhile isL).length ≤ t.length := (List.dropWhile_sublist _).length_le
  simp only [List.length_cons] at h0
  omega

theorem scanParts_nil_gap (isL : Char → Bool) (s : List Char)
    (h : (s.dropWhile fun c => !isL c) = []) :
    scanParts isL s = ([], s.takeWhile fun c => !isL c) := by
  rw [scanParts.eq_def, h]

theorem scanParts_cons (isL : Char → Bool) (s : List Char) (c : Char)
    (t : List Char) (h : (s.dropWhile fun c => !isL c) = c :: t) :
    scanParts isL s
      = (((s.takeWhile fun c => !isL c),
            (c :: t.takeWhile isL) ++ (apoRuns isL (t.dropWhile isL)).1)
          :: (scanParts isL (apoRuns isL (t.dropWhile isL)).2).1,
        (scanParts isL (apoRuns isL (t.dropWhile isL)).2).2) := by
  rw [scanParts.eq_def, h]

/-- The decomposition reassembles the input text. -/
theorem scanParts_reassemble (isL : Char → Bool) :
    ∀ (n : ℕ) (s : List Char), s.length ≤ n →
      ((scanParts isL s).1.map fun p => p.1 ++ p.2).flatten
        ++ (scanParts isL s).2 = s := by
  intro n
  induction n with
  | zero =>
      intro s hs
      have hs0 := List.length_eq_zero.1 (Nat.le_zero.1 hs)
      subst hs0
      rw [scanParts_nil_gap isL [] rfl]
      rfl
  | succ n ih =>
      intro s hs
      cases hdw : s.dropWhile fun c => !isL c with
      | nil =>
          rw [scanParts_nil_gap isL s hdw]
          simp only [List.map_nil, List.flatten_nil, List.nil_append]
          conv_rhs => rw [← List.takeWhile_append_dropWhile
            (p := fun c => !isL c) (l := s), hdw, List.append_nil]
      | cons c t =>
          rw [scanParts_cons isL s c t hdw]
          have hlen1 : (c :: t).length ≤ s.length :=
            hdw ▸ (List.dropWhile_sublist _).length_le
          have hlen2 : (apoRuns isL (t.dropWhile isL)).2.length
              ≤ (t.dropWhile isL).length :=
            apoRuns_snd_length_le isL _ _ (Nat.le_refl _)
          have hlen3 : (t.dropWhile isL).length ≤ t.length :=
            (List.dropWhile_sublist _).length_le
          have hrec := ih (apoRuns isL (t.dropWhile isL)).2 (by
            simp only [List.length_cons] at hlen1
            omega)
          have hapo := apoRuns_append isL (t.dropWhile isL).length
            (t.dropWhile isL) (Nat.le_refl _)
          simp only [List.map_cons, List.flatten_cons, List.append_assoc,
            List.cons_append, hrec]
          rw [hapo, List.takeWhile_append_dropWhile]
          conv_rhs => rw [← List.takeWhile_append_dropWhile
            (p := fun c => !isL c) (l := s), hdw]

/-- The oracles of the merge pipeline: the `\p{L}` letter class of the token
regex, `char::is_alphabetic` and `char::is_whitespace`, the
`.nfkc().collect::<String>().to_lowercase()` normalization, the
`check_in_dawg` probe over the process-global dictionaries (returning
`(in_dawg, spaced_in_dawg)` for the normalized concatenated and space-joined
candidates), and the `check_word_with_bert` plausibility oracle. -/
structure MergeEnv where
  isL : Char → Bool
  isAlpha : Char → Bool
  isWS : Char → Bool
  norm : List Char → List Char
  checkInDawg : List Char → List Char → Bool × Bool
  bert : List Char → Option ℚ

/-- Embedding of `is_reasonable_word` (lines 208–210 of
`src/whisper_integration.rs`): at most 20 bytes, and alphabetic or apostrophe
characters only. -/
def is_reasonable_word (isAlpha : Char → Bool) (w : List Char) : Bool :=
  rustLen w ≤ 20 && w.all fun c => isAlpha c || c == '\''

/-- Embedding of `are_tokens_adjacent` for the window of `k` tokens at the
head of the remaining decomposition: the `k - 1` gaps strictly inside the
window are whitespace-only. -/
def are_tokens_adjacent (env : MergeEnv)
    (parts : List (List Char × List Char)) (k : ℕ) : Bool :=
  ((parts.drop 1).take (k - 1)).all fun p => p.1.all env.isWS

/-- Embedding of one `merge_len = k` iteration of the loop body of
`try_merge_tokens` (lines 272–321): bounds check, adjacency check, candidate
construction (`build_candidates`), sanity filter, dictionary probe
(`check_in_dawg`), then the decision (`handle_merge_decision`) on the merge
score (`compute_merge_score`).  Any failed check falls through to `none`
(the caller then tries the next smaller `k`). -/
def try_at (env : MergeEnv) (parts : List (List Char × List Char)) (k : ℕ) :
    Option (List Char × ℕ) :=
  if k ≤ parts.length then
    if are_tokens_adjacent env parts k then
      let candidate := ((parts.take k).map Prod.snd).flatten
      let candidate_with_space :=
        List.intercalate [' '] ((parts.take k).map Prod.snd)
      let candidate_lower := env.norm candidate
      let candidate_with_space_lower := env.norm candidate_with_space
      if is_reasonable_word env.isAlpha candidate_lower then
        let d := env.checkInDawg candidate_lower candidate_with_space_lower
        if d.1 then
          handle_merge_decision env.bert candidate candidate_lower
            candidate_with_space d.2 k
            (compute_merge_score env.bert candidate_lower k)
        else none
      else none
    else none
  else none

/-- Embedding of `try_merge_tokens` (lines 266–323): try the window sizes
from `k` down to `2`, returning the first approved merge.  The starting token
index of the source is the position of `parts` inside the full decomposition
(the caller passes successive suffixes). -/
def try_merge_tokens (env : MergeEnv)
    (parts : List (List Char × List Char)) : ℕ → Option (List Char × ℕ)
  | 0 => none
  | 1 => none
  | k + 2 =>
      match try_at env parts (k + 2) with
      | some r => some r
      | none => try_merge_tokens env parts (k + 1)

/-- Embedding of the scan loop of `merge_separated_words_dawg_regex`
(lines 227–250): on a merge of `cnt` tokens, emit the gap before the window
and the merged word and skip the remaining `cnt - 1` parts of the window
(gaps inside the window are consumed, matching `last_end =
token_matches[i + merged_count - 1].end()`); otherwise copy gap and token
verbatim and advance by one. -/
def mergeLoop (env : MergeEnv) (maxMerge : ℕ) :
    List (List Char × List Char) → List Char → List Char
  | [], tl => tl
  | (g, t) :: rest, tl =>
      match try_merge_tokens env ((g, t) :: rest) maxMerge with
      | some (w, cnt) => g ++ w ++ mergeLoop env maxMerge (rest.drop (cnt - 1)) tl
      | none => g ++ t ++ mergeLoop env maxMerge rest tl
termination_by parts _ => parts.length
decreasing_by
  · have := List.length_drop (cnt - 1) rest
    simp only [List.length_cons]
    omega
  · simp only [List.length_cons]
    omega

/-- Embedding of `merge_separated_words_dawg_regex` (lines 216–255):
tokenize, then scan with the merge loop, finally appending the trailing text
after the last token. -/
def merge_separated_words_dawg_regex (env : MergeEnv) (text : List Char)
    (max_merge : ℕ) : List Char :=
  mergeLoop env max_merge (scanParts env.isL text).1 (scanParts env.isL text).2

theorem handle_merge_decision_some (bert : List Char → Option ℚ)
    (cand cl cws : List Char) (spaced : Bool) (k : ℕ) (score : ℚ)
    (w : List Char) (c : ℕ)
    (h : handle_merge_decision bert cand cl cws spaced k score = some (w, c)) :
    w = cand ∧ c = k := by
  simp only [handle_merge_decision] at h
  by_cases h1 : k = 2 ∧ rustLen cl < 10
  · rw [if_pos h1] at h
    by_cases h2 : spaced = true ∧ (bert cl).getD 0 < 0.1
    · rw [if_pos h2] at h
      exact absurd h (by simp)
    · rw [if_neg h2] at h
      obtain ⟨ha, hb⟩ := Prod.ext_iff.1 (Option.some.inj h)
      exact ⟨ha.symm, hb.symm⟩
  · rw [if_neg h1] at h
    by_cases h2 : spaced = false
      ∨ (if k = 2 then (0.70 : ℚ) else if k = 3 then 0.75 else 0.80) ≤ score
    · rw [if_pos h2] at h
      obtain ⟨ha, hb⟩ := Prod.ext_iff.1 (Option.some.inj h)
      exact ⟨ha.symm, hb.symm⟩
    · rw [if_neg h2] at h
      exact absurd h (by simp)

theorem try_at_some (env : MergeEnv) (parts : List (List Char × List Char))
    (k : ℕ) (w : List Char) (cnt : ℕ)
    (h : try_at env parts k = some (w, cnt)) :
    w = ((parts.take k).map Prod.snd).flatten ∧ cnt = k := by
  simp only [try_at] at h
  split at h
  · split at h
    · split at h
      · split at h
        · exact handle_merge_decision_some _ _ _ _ _ _ _ _ _ h
        · simp at h
      · simp at h
    · simp at h
  · simp at h

/-- **C10, confirmed.**  Whenever the merge engine approves a merge of `cnt`
tokens, the replacement string is exactly the concatenation of the original
token texts as they appear in the source text (`build_candidates`'
un-normalized `candidate`, handed back verbatim by `handle_merge_decision`);
the lower-cased NFKC form feeds only the sanity filter, the dictionary probe
and the scoring, never the output. -/
theorem try_merge_tokens_original_tokens (env : MergeEnv)
    (parts : List (List Char × List Char)) :
    ∀ (k : ℕ) (w : List Char) (cnt : ℕ),
      try_merge_tokens env parts k = some (w, cnt) →
      2 ≤ cnt ∧ w = ((parts.take cnt).map Prod.snd).flatten := by
  intro k
  induction k using Nat.strong_induction_on with
  | _ k ih =>
      match k with
      | 0 => intro w cnt h; simp [try_merge_tokens] at h
      | 1 => intro w cnt h; simp [try_merge_tokens] at h
      | (k + 2) =>
          intro w cnt h
          rw [try_merge_tokens] at h
          cases hta : try_at env parts (k + 2) with
          | some r =>
              rw [hta] at h
              have hta' : try_at env parts (k + 2) = some (w, cnt) := by
                rw [hta, Option.some.inj h]
              obtain ⟨h1, h2⟩ := try_at_some env parts (k + 2) w cnt hta'
              subst h2
              exact ⟨by omega, h1⟩
          | none =>
              rw [hta] at h
              exact ih (k + 1) (by omega) w cnt h

/-- A small executable oracle family for the pipeline witnesses: ASCII
letters, single-space whitespace, identity normalization, a dictionary that
accepts every concatenated candidate and no spaced form, and a constantly
confident plausibility oracle. -/
def demoEnv : MergeEnv where
  isL := Char.isAlpha
  isAlpha := Char.isAlpha
  isWS := fun c => c == ' '
  norm := id
  checkInDawg := fun _ _ => (true, false)
  bert := fun _ => some 1

/-- Witness for `try_merge_tokens_original_tokens`: on the decomposition of
`"bon jour"` the engine merges both tokens and the replacement is the
original concatenation `"bonjour"`. -/
theorem try_merge_tokens_original_tokens_witness :
    2 ≤ 2 ∧ "bonjour".toList =
      (([(([] : List Char), "bon".toList),
          ([' '], "jour".toList)].take 2).map Prod.snd).flatten :=
  try_merge_tokens_original_tokens demoEnv
    [(([] : List Char), "bon".toList), ([' '], "jour".toList)]
    2 "bonjour".toList 2 (by decide)

theorem try_at_none_of_not_accepted (env : MergeEnv)
    (parts : List (List Char × List Char)) (k : ℕ)
    (h : (env.checkInDawg
        (env.norm (((parts.take k).map Prod.snd).flatten))
        (env.norm (List.intercalate [' ']
          ((parts.take k).map Prod.snd)))).1 = false) :
    try_at env parts k = none := by
  simp only [try_at]
  split
  · split
    · split
      · rw [h]
        simp
      · rfl
    · rfl
  · rfl

theorem try_merge_tokens_none (env : MergeEnv)
    (parts : List (List Char × List Char)) :
    ∀ k, (∀ j, 2 ≤ j → j ≤ k → try_at env parts j = none) →
      try_merge_tokens env parts k = none := by
  intro k
  induction k using Nat.strong_induction_on with
  | _ k ih =>
      match k with
      | 0 => intro _; rfl
      | 1 => intro _; rfl
      | (k + 2) =>
          intro hall
          rw [try_merge_tokens, hall (k + 2) (by omega) (by omega)]
          exact ih (k + 1) (by omega) fun j h2 hj => hall j h2 (by omega)

theorem mergeLoop_nil (env : MergeEnv) (m : ℕ) (tl : List Char) :
    mergeLoop env m [] tl = tl := by
  simp [mergeLoop]

theorem mergeLoop_cons_none (env : MergeEnv) (m : ℕ) (g t : List Char)
    (rest : List (List Char × List Char)) (tl : List Char)
    (h : try_merge_tokens env ((g, t) :: rest) m = none) :
    mergeLoop env m ((g, t) :: rest) tl = g ++ t ++ mergeLoop env m rest tl := by
  rw [mergeLoop.eq_def]
  simp only [h]

theorem mergeLoop_copy (env : MergeEnv) (maxMerge : ℕ) :
    ∀ (parts : List (List Char × List Char)) (tl : List Char),
      (∀ i, try_merge_tokens env (parts.drop i) maxMerge = none) →
      mergeLoop env maxMerge parts tl
        = (parts.map fun p => p.1 ++ p.2).flatten ++ tl := by
  intro parts
  induction parts with
  | nil =>
      intro tl _
      rw [mergeLoop_nil]
      rfl
  | cons gt rest ih =>
      intro tl hall
      obtain ⟨g, t⟩ := gt
      have h0 := hall 0
      rw [mergeLoop_cons_none env maxMerge g t rest tl (by simpa using h0)]
      rw [ih tl fun i => by simpa [List.drop_succ_cons] using hall (i + 1)]
      simp [List.append_assoc]

/-- **C3, confirmed.**  No-dictionary-hit identity: if no `k`-token window
(`2 ≤ k ≤ max_merge`) over the tokenization of `text` has its concatenated
candidate accepted by the dictionary probe, the repair pipeline returns the
input unchanged. -/
theorem merge_no_hit_identity (env : MergeEnv) (text : List Char)
    (max_merge : ℕ)
    (H : ∀ i k, 2 ≤ k → k ≤ max_merge →
      i + k ≤ (scanParts env.isL text).1.length →
      (env.checkInDawg
        (env.norm (((((scanParts env.isL text).1.drop i).take k).map
          Prod.snd).flatten))
        (env.norm (List.intercalate [' ']
          ((((scanParts env.isL text).1.drop i).take k).map Prod.snd)))).1
        = false) :
    merge_separated_words_dawg_regex env text max_merge = text := by
  rw [merge_separated_words_dawg_regex,
    mergeLoop_copy env max_merge _ _ ?hall]
  · exact scanParts_reassemble env.isL text.length text (Nat.le_refl _)
  case hall =>
    intro i
    refine try_merge_tokens_none env _ max_merge fun j h1 h2 => ?_
    by_cases hb : j ≤ ((scanParts env.isL text).1.drop i).length
    · refine try_at_none_of_not_accepted env _ j (H i j h1 h2 ?_)
      rw [List.length_drop] at hb
      omega
    · simp only [try_at, if_neg hb]

/-- The const-reject dictionary environment for the identity witness. -/
def demoEnvNone : MergeEnv :=
  { demoEnv with checkInDawg := fun _ _ => (false, false) }

/-- Witness for `merge_no_hit_identity`: with a dictionary that accepts
nothing, repairing `"bon jour"` returns it byte for byte. -/
theorem merge_no_hit_identity_witness :
    merge_separated_words_dawg_regex demoEnvNone "bon jour".toList 2
      = "bon jour".toList :=
  merge_no_hit_identity demoEnvNone "bon jour".toList 2
    fun _ _ _ _ _ => rfl

end VoxAurora
